import Mathlib

/-!
Verification of the SyncUsingWS WebDAV synchronization tool.

This file gives a shallow embedding of the synchronization engine
(`pkg/sync/sync.go`), the WebDAV client transfer code (`pkg/client/webdav.go`)
and the retry helper (`pkg/util/retry.go`), and proves or refutes the
specification's claims about them.

Timestamps are modelled as integer nanoseconds (Go's `time.Time` comparisons
`After`/`Before` are strict comparisons on nanosecond instants).
-/

/-- One second, in nanoseconds (`time.Second`). -/
def nsPerSecond : Int := 1000000000

/-- The timestamp comparison from `SyncFile` (sync.go lines 393-405):
`needsDownload` starts `true`; when the local file exists and
`localModTime.Add(time.Second).After(remote) && localModTime.Add(-time.Second).Before(remote)`
holds, it is set to `false`. Go's `After`/`Before` are strict `>`/`<`. -/
def SyncFile.needsDownload (localExists : Bool) (localModTime remoteModTime : Int) : Bool :=
  if localExists then
    if localModTime + nsPerSecond > remoteModTime ∧ localModTime - nsPerSecond < remoteModTime
    then false
    else true
  else true

/-- The timestamp comparison from `syncLocalFileToWebDAV` (sync.go lines 336-366):
`needsUpload` starts `true`; when the remote file exists and the parent-directory
listing contains an entry with the same base name (`matchedRemote` is its
last-modified time), the same strict one-second window test is applied. -/
def syncLocalFileToWebDAV.needsUpload (remoteExists : Bool) (matchedRemote : Option Int)
    (localModTime : Int) : Bool :=
  match remoteExists, matchedRemote with
  | true, some remoteModTime =>
    if localModTime + nsPerSecond > remoteModTime ∧ localModTime - nsPerSecond < remoteModTime
    then false
    else true
  | _, _ => true

/-- `findExtraFiles` (sync.go lines 496-512): keeps the entries of `source`
that are not present in `target` (the Go code materializes `target` as a
hash set; membership in that set is list membership). -/
def findExtraFiles (source target : List String) : List String :=
  source.filter (fun f => ¬ target.contains f)

/-- Insertion step for sorting by string length, descending. -/
def insertByLenDesc (s : String) : List String → List String
  | [] => [s]
  | t :: ts => if t.length ≤ s.length then s :: t :: ts else t :: insertByLenDesc s ts

/-- The `sort.Slice(filesToDelete, func(i, j int) bool { return len(a) > len(b) })`
step (sync.go lines 74-77 and 125-128): sorts the deletion candidates by path
length, descending.  `sort.Slice` is unstable, so any sort for this comparator
is a faithful model; we use insertion sort. -/
def sortByLenDesc : List String → List String
  | [] => []
  | s :: ss => insertByLenDesc s (sortByLenDesc ss)

/-! ## Run-level traces of `RestoreFromWebDAV` and `BackupToWebDAV`

The two run functions (sync.go lines 49-97 and 100-147) are modelled as
functions producing the ordered list of the observable actions they take.
The outcomes of the external calls are passed in as oracle parameters:
`sourceListOk`/`sourceList` for the pre-pass enumeration, `rootListOk` for
the root `ListFiles` call inside the pass and `taskErrors` for the outcomes
of all per-file/per-subdirectory tasks (collected by the pass into an error
slice; the pass returns a non-nil error iff that slice is non-empty,
sync.go lines 214-224), and `destListOk`/`destList` for the enumeration
performed inside the deletion branch. -/

/-- Observable actions of one run. -/
inductive SyncEvent where
  | enumRemote : SyncEvent
  | enumLocal : SyncEvent
  | runPass : SyncEvent
  | deletePath (p : String) : SyncEvent
deriving DecidableEq, Repr

/-- `SyncDirectory` / `syncLocalToWebDAV` error aggregation: the pass returns
a nil error iff the root listing succeeded and no per-file task pushed an
error onto the error channel. -/
def passReturnsNil (rootListOk : Bool) (taskErrors : List Bool) : Bool :=
  rootListOk && !(taskErrors.any (fun e => e))

/-- Trace of `RestoreFromWebDAV` (sync.go lines 49-97): enumerate the remote
(source) tree, run the pass, and only if `SyncDelete` is set and the pass
returned nil, enumerate the local (destination) tree and delete the extra
entries sorted by length descending. -/
def RestoreFromWebDAV (syncDelete : Bool) (remoteListOk : Bool) (remoteList : List String)
    (rootListOk : Bool) (taskErrors : List Bool) (localListOk : Bool)
    (localList : List String) : List SyncEvent :=
  if !remoteListOk then [SyncEvent.enumRemote]
  else
    [SyncEvent.enumRemote, SyncEvent.runPass] ++
    (if syncDelete && passReturnsNil rootListOk taskErrors then
      if !localListOk then [SyncEvent.enumLocal]
      else SyncEvent.enumLocal ::
        (sortByLenDesc (findExtraFiles localList remoteList)).map SyncEvent.deletePath
     else [])

/-- Trace of `BackupToWebDAV` (sync.go lines 100-147): symmetric to the
restore run with the local tree as source and the remote tree as
destination. -/
def BackupToWebDAV (syncDelete : Bool) (localListOk : Bool) (localList : List String)
    (rootListOk : Bool) (taskErrors : List Bool) (remoteListOk : Bool)
    (remoteList : List String) : List SyncEvent :=
  if !localListOk then [SyncEvent.enumLocal]
  else
    [SyncEvent.enumLocal, SyncEvent.runPass] ++
    (if syncDelete && passReturnsNil rootListOk taskErrors then
      if !remoteListOk then [SyncEvent.enumRemote]
      else SyncEvent.enumRemote ::
        (sortByLenDesc (findExtraFiles remoteList localList)).map SyncEvent.deletePath
     else [])

/-! ## The retry helper (`pkg/util/retry.go`) -/

/-- Outcome of `Retry`: either nil, or the error built by
`fmt.Errorf("... %d ...: %v", attempts, err)` which records the attempt
count and the last underlying error (`none` only when `attempts = 0`,
where the loop never ran and `err` is still nil). -/
inductive RetryOutcome (ε : Type) where
  | ok : RetryOutcome ε
  | exhausted (attempts : Nat) (last : Option ε) : RetryOutcome ε
deriving DecidableEq, Repr

/-- Full observable behaviour of one `Retry` call: the returned value, the
number of invocations of `operation`, and the sequence of sleep durations. -/
structure RetryTrace (ε : Type) where
  outcome : RetryOutcome ε
  calls : Nat
  sleeps : List Nat
deriving DecidableEq, Repr

/-- The loop of `Retry` (retry.go lines 13-24), by recursion on the number of
remaining iterations; `i` is the Go loop index, `sleep` the current delay.
The operation at attempt `i` returns `none` on success or `some e` on error.
After a failed attempt, if further attempts remain (`i < attempts-1`), the
code sleeps for `sleep` and doubles it. -/
def retryAux {ε : Type} (ops : Nat → Option ε) (attempts : Nat) (i : Nat) (sleep : Nat) :
    Nat → RetryTrace ε
  | 0 => ⟨RetryOutcome.exhausted attempts none, 0, []⟩
  | r + 1 =>
    match ops i with
    | none => ⟨RetryOutcome.ok, 1, []⟩
    | some e =>
      if r = 0 then ⟨RetryOutcome.exhausted attempts (some e), 1, []⟩
      else
        let t := retryAux ops attempts (i + 1) (2 * sleep) r
        ⟨t.outcome, t.calls + 1, sleep :: t.sleeps⟩

/-- `Retry(attempts, sleep, operation)` (retry.go lines 10-27). -/
def Retry {ε : Type} (attempts : Nat) (sleep : Nat) (ops : Nat → Option ε) : RetryTrace ε :=
  retryAux ops attempts 0 sleep attempts

/-! ## Local filesystem model and `DownloadFile` (webdav.go lines 109-211)

The local filesystem is a finite map from paths to file data, represented as
an association list.  `DownloadFile` delegates to `DownloadFileWithProgress`;
the progress callback only wraps the reader and does not change the file
operations, so one model covers both. -/

/-- Content and modification time of one local file. -/
structure FileData where
  content : String
  mtime : Int
deriving DecidableEq, Repr

/-- A local filesystem: association list from path to file data. -/
abbrev FS : Type := List (String × FileData)

/-- Look up a path. -/
def FS.lookup : FS → String → Option FileData
  | [], _ => none
  | e :: t, p => if e.1 = p then some e.2 else FS.lookup t p

/-- Remove a path (`os.Remove`). -/
def FS.erase : FS → String → FS
  | [], _ => []
  | e :: t, p => if e.1 = p then FS.erase t p else e :: FS.erase t p

/-- Create or overwrite a path (`os.Create` / writes). -/
def FS.set (fs : FS) (p : String) (d : FileData) : FS :=
  (p, d) :: FS.erase fs p

/-- `os.Rename src dst`: move the data at `src` onto `dst`. -/
def FS.rename (fs : FS) (src dst : String) : FS :=
  match FS.lookup fs src with
  | none => fs
  | some d => FS.set (FS.erase fs src) dst d

/-- `os.Chtimes p t t`: set the modification time of an existing file. -/
def FS.chtimes (fs : FS) (p : String) (t : Int) : FS :=
  match FS.lookup fs p with
  | none => fs
  | some d => FS.set fs p ⟨d.content, t⟩

/-- `DownloadFile` / `DownloadFileWithProgress` (webdav.go lines 117-211):
stat the remote file, open the remote stream, create the temporary file
`localPath ++ ".download"`, copy the stream into it (`copyResult` is the
streamed content, or an error), close, rename onto `localPath`, and set its
modification time to the remote one.  A deferred handler removes the
temporary file whenever the function returns a non-nil error after the
temporary file was created.  Oracles: `statOk`, `readOk`, `createOk`,
`closeOk`, `renameOk` for the corresponding calls; `now` is the creation
timestamp the OS assigns.  Returns the new filesystem and whether an error
was returned. -/
def DownloadFile (fs : FS) (now : Int) (statOk readOk createOk closeOk renameOk : Bool)
    (copyResult : Except Unit String) (localPath : String) (remoteModTime : Int) :
    FS × Bool :=
  if !statOk then (fs, true)
  else if !readOk then (fs, true)
  else
    let tmpFile := localPath ++ ".download"
    if !createOk then (fs, true)
    else
      let fs1 := FS.set fs tmpFile ⟨"", now⟩
      match copyResult with
      | Except.error _ => (FS.erase fs1 tmpFile, true)
      | Except.ok data =>
        let fs2 := FS.set fs1 tmpFile ⟨data, now⟩
        if !closeOk then (FS.erase fs2 tmpFile, true)
        else if !renameOk then (FS.erase fs2 tmpFile, true)
        else (FS.chtimes (FS.rename fs2 tmpFile localPath) localPath remoteModTime, false)

/-! ## Sync mode selection (config.go lines 277-285, 414-424; sync.go lines 34-46) -/

/-- `config.BackupMode` — in Go, `SyncMode` is a string type. -/
def BackupMode : String := "backup"

/-- `config.RestoreMode`. -/
def RestoreMode : String := "restore"

/-- `Config.GetSyncMode` (config.go lines 415-424): switch on the configured
`Mode` string; anything other than the two known values falls through to
`RestoreMode`. -/
def GetSyncMode (mode : String) : String :=
  if mode = BackupMode then BackupMode
  else if mode = RestoreMode then RestoreMode
  else RestoreMode

/-- What `StartSync` (sync.go lines 34-46) dispatches to. -/
inductive StartSyncResult where
  | backupRun : StartSyncResult
  | restoreRun : StartSyncResult
  | unknownModeError (mode : String) : StartSyncResult
deriving DecidableEq, Repr

/-- `StartSync` (sync.go lines 34-46): switch over `GetSyncMode()`; the
default branch returns the "unknown sync mode" error carrying the raw
configured mode string. -/
def StartSync (mode : String) : StartSyncResult :=
  if GetSyncMode mode = BackupMode then StartSyncResult.backupRun
  else if GetSyncMode mode = RestoreMode then StartSyncResult.restoreRun
  else StartSyncResult.unknownModeError mode

/-! ## One file across two runs (idempotence)

Per-file state is the file's modification time on each side (`none` when the
file is absent).  A pull of one file combines the `SyncFile` decision with
the effect of a successful `DownloadFile`, whose final `os.Chtimes` sets the
local modification time to the remote one.  A push combines the
`syncLocalFileToWebDAV` decision with the effect of a successful
`UploadFile` (webdav.go lines 220-301): it streams the bytes with
`WriteStream` and never sets the remote modification time (its
`localModTime` parameter is unused), so after an upload the remote
modification time is whatever the server records (`serverMTime`). -/

/-- One pull (restore) of a single file: returns the new local modification
time and whether a transfer happened. -/
def pullFileRun (localMTime : Option Int) (remoteMTime : Int) : Option Int × Bool :=
  match localMTime with
  | none => (some remoteMTime, true)
  | some l =>
    if SyncFile.needsDownload true l remoteMTime then (some remoteMTime, true)
    else (some l, false)

/-- One push (backup) of a single file: returns the new remote modification
time and whether a transfer happened. -/
def pushFileRun (localMTime : Int) (remoteMTime : Option Int) (serverMTime : Int) :
    Option Int × Bool :=
  match remoteMTime with
  | none => (some serverMTime, true)
  | some r =>
    if syncLocalFileToWebDAV.needsUpload true (some r) localMTime then (some serverMTime, true)
    else (some r, false)

/-! ## Directory trees and the two enumerators (sync.go lines 433-493)

A tree is a list of named nodes; names are the entries' base names.  The
local enumerator models `buildLocalFileList` (`filepath.Walk` over the tree,
emitting every node's slash-separated path relative to the root, the root
itself skipped).  The remote enumerator models `buildRemoteFileList`
together with the path construction done by `ListFiles`/`listRemoteFiles`
(webdav.go lines 46-101): the requested path is normalized (a leading `/` is
added when missing, and the root becomes the empty string) and each child's
path is the normalized directory path, a `/` separator when needed, and the
child's name. -/

mutual
/-- A node of a directory tree. -/
inductive Node where
  | file (name : String) : Node
  | dir (name : String) (children : NodeList) : Node
/-- A list of sibling nodes. -/
inductive NodeList where
  | nil : NodeList
  | cons (head : Node) (tail : NodeList) : NodeList
end

/-- The entry name of a node. -/
def Node.name : Node → String
  | Node.file n => n
  | Node.dir n _ => n

/-- A well-formed file name: non-empty and without a path separator. -/
def validName (n : String) : Bool :=
  ¬ n = "" && !(n.data.contains '/')

/-- The names of the nodes of a sibling list. -/
def NodeList.names : NodeList → List String
  | NodeList.nil => []
  | NodeList.cons h t => h.name :: NodeList.names t

mutual
/-- Well-formedness of a tree: every name is valid and sibling names are
distinct (a filesystem/WebDAV directory cannot hold two entries with the
same name). -/
def Node.validB : Node → Bool
  | Node.file n => validName n
  | Node.dir n sub => validName n && NodeList.validB sub
def NodeList.validB : NodeList → Bool
  | NodeList.nil => true
  | NodeList.cons h t =>
    Node.validB h && NodeList.validB t && !(NodeList.names t).contains h.name
end

/-- Relative slash-path join, as produced by `filepath.Rel` plus
`filepath.ToSlash` in `buildLocalFileList`. -/
def slashJoin (base name : String) : String :=
  if base = "" then name else base ++ "/" ++ name

mutual
/-- Paths contributed by one node during the `filepath.Walk` of
`buildLocalFileList` (sync.go lines 433-461): the node's own relative path,
then (for a directory) its descendants. -/
def nodeLocalPaths (base : String) : Node → List String
  | Node.file n => [slashJoin base n]
  | Node.dir n sub => slashJoin base n :: listLocalPaths (slashJoin base n) sub
/-- Paths contributed by a sibling list during the walk. -/
def listLocalPaths (base : String) : NodeList → List String
  | NodeList.nil => []
  | NodeList.cons h t => nodeLocalPaths base h ++ listLocalPaths base t
end

/-- `buildLocalFileList`: walk from the root (the root itself is skipped by
the `path == baseDir` check), yielding relative slash paths. -/
def buildLocalFileList (root : NodeList) : List String :=
  listLocalPaths "" root

/-- `strings.HasPrefix`, on the character lists underlying the strings. -/
def strHasPrefix (s pre : String) : Bool :=
  pre.data.isPrefixOf s.data

/-- `strings.HasSuffix`, on the character lists underlying the strings. -/
def strHasSuffix (s post : String) : Bool :=
  post.data.isSuffixOf s.data

/-- The path normalization at the top of `listRemoteFiles` (webdav.go lines
67-76): ensure a leading `/`, then map the root to the empty string. -/
def normalizeRemote (p : String) : String :=
  let q := if strHasPrefix p "/" then p else "/" ++ p
  if q = "/" then "" else q

/-- The child-path construction of `listRemoteFiles` (webdav.go lines
83-98): append a `/` to the directory path unless it is empty or already
ends in `/`, then append the child name. -/
def remoteChildPath (base name : String) : String :=
  (if ¬ base = "" ∧ ¬ strHasSuffix base "/" then base ++ "/" else base) ++ name

mutual
/-- `buildRemoteFileList` (sync.go lines 464-493): add the requested path
itself unless it is the root, then process the listing of that directory. -/
def buildRemoteFileList (remotePath : String) (children : NodeList) : List String :=
  (if ¬ remotePath = "/" ∧ ¬ remotePath = "" then [remotePath] else []) ++
    remoteEntries (normalizeRemote remotePath) children
/-- The loop over the entries returned by `ListFiles` (sync.go lines
479-490): every entry's path is added, and for a directory the function
recurses on the entry's path, whose own invocation adds that path again. -/
def remoteEntries (base : String) : NodeList → List String
  | NodeList.nil => []
  | NodeList.cons e t =>
    (match e with
     | Node.file n => [remoteChildPath base n]
     | Node.dir n sub =>
       remoteChildPath base n :: buildRemoteFileList (remoteChildPath base n) sub) ++
    remoteEntries base t
end

/-- The directory paths that `buildRemoteFileList` encounters below a
listing with normalized base `base`: the constructed path of any directory
entry of the listing, and recursively any directory path of a
subdirectory's listing. -/
inductive IsDirPath : String → NodeList → String → Prop where
  | head (base n : String) (sub t : NodeList) :
      IsDirPath base (NodeList.cons (Node.dir n sub) t) (remoteChildPath base n)
  | tail (base : String) (e : Node) (t : NodeList) (p : String) :
      IsDirPath base t p → IsDirPath base (NodeList.cons e t) p
  | deeper (base n : String) (sub t : NodeList) (p : String) :
      IsDirPath (normalizeRemote (remoteChildPath base n)) sub p →
      IsDirPath base (NodeList.cons (Node.dir n sub) t) p

/-- An operation failing on its first two attempts and succeeding on the
third, used to exercise the retry semantics. -/
def opsFailTwice : Nat → Option Unit :=
  fun k => if k < 2 then some () else none

/-- `p` is the path `q` itself or a path below it (`q` followed by a
separator and a remainder). -/
def extOf (q p : String) : Prop :=
  p = q ∨ ∃ r : String, p = q ++ "/" ++ r

/-! # Supporting lemmas -/

theorem length_insertByLenDesc (s : String) (l : List String) :
    (insertByLenDesc s l).length = l.length + 1 := by
  induction l with
  | nil => rfl
  | cons t ts ih =>
    simp only [insertByLenDesc]
    split
    · simp
    · simp [ih]

theorem mem_insertByLenDesc (b s : String) (l : List String) :
    b ∈ insertByLenDesc s l ↔ b = s ∨ b ∈ l := by
  induction l with
  | nil => simp [insertByLenDesc]
  | cons t ts ih =>
    simp only [insertByLenDesc]
    split
    · simp
    · simp only [List.mem_cons, ih]
      tauto

theorem pairwise_insertByLenDesc (s : String) (l : List String)
    (h : l.Pairwise (fun a b => b.length ≤ a.length)) :
    (insertByLenDesc s l).Pairwise (fun a b => b.length ≤ a.length) := by
  induction l with
  | nil => simp [insertByLenDesc]
  | cons t ts ih =>
    simp only [insertByLenDesc]
    rcases List.pairwise_cons.mp h with ⟨ht, hts⟩
    split
    · rename_i hle
      refine List.pairwise_cons.mpr ⟨?_, h⟩
      intro b hb
      rcases hb with _ | hb
      · exact hle
      · exact le_trans (ht _ (by assumption)) hle
    · rename_i hgt
      push_neg at hgt
      refine List.pairwise_cons.mpr ⟨?_, ih hts⟩
      intro b hb
      rcases (mem_insertByLenDesc b s ts).mp hb with rfl | hb2
      · exact le_of_lt hgt
      · exact ht _ hb2

theorem pairwise_sortByLenDesc (l : List String) :
    (sortByLenDesc l).Pairwise (fun a b => b.length ≤ a.length) := by
  induction l with
  | nil => simp [sortByLenDesc]
  | cons s ss ih => exact pairwise_insertByLenDesc s _ ih

/-! # Claims -/

/-- C1, counterexample.  The claim says a source/destination modification
time difference of exactly 1.000s counts as unchanged (no transfer).  At
local time 0 and remote time exactly one second later, both `SyncFile` and
`syncLocalFileToWebDAV` decide to transfer, because the Go comparison is a
strict one-second window. -/
theorem c1_exact_one_second_transfers :
    SyncFile.needsDownload true 0 nsPerSecond = true ∧
    syncLocalFileToWebDAV.needsUpload true (some nsPerSecond) 0 = true := by
  constructor <;> decide

/-- C1, amended.  A missing destination always transfers; for an existing
destination the file is skipped if and only if the absolute time difference
is strictly below one second, so a difference of exactly 1.000s transfers
and anything below one second does not. -/
theorem c1_transfer_decision (l r : Int) :
    SyncFile.needsDownload false l r = true ∧
    (SyncFile.needsDownload true l r = false ↔ |l - r| < nsPerSecond) ∧
    (∀ o : Option Int, syncLocalFileToWebDAV.needsUpload false o l = true) ∧
    syncLocalFileToWebDAV.needsUpload true none l = true ∧
    (syncLocalFileToWebDAV.needsUpload true (some r) l = false ↔ |l - r| < nsPerSecond) := by
  refine ⟨rfl, ?_, fun o => by cases o <;> rfl, rfl, ?_⟩
  · rw [abs_sub_lt_iff]
    simp only [SyncFile.needsDownload, if_true]
    split
    · rename_i h
      constructor
      · intro _
        omega
      · intro _
        rfl
    · rename_i h
      constructor
      · intro hfalse
        exact absurd hfalse (by simp)
      · intro hlt
        exact absurd (by omega : l + nsPerSecond > r ∧ l - nsPerSecond < r) h
  · rw [abs_sub_lt_iff]
    simp only [syncLocalFileToWebDAV.needsUpload]
    split
    · rename_i h
      constructor
      · intro _
        omega
      · intro _
        rfl
    · rename_i h
      constructor
      · intro hfalse
        exact absurd hfalse (by simp)
      · intro hlt
        exact absurd (by omega : l + nsPerSecond > r ∧ l - nsPerSecond < r) h

/-- C8.  `findExtraFiles dest src` is exactly the set difference: a path is
selected for deletion iff it occurs in the destination enumeration and not
in the source enumeration. -/
theorem c8_extra_files_are_set_difference (dest src : List String) (p : String) :
    p ∈ findExtraFiles dest src ↔ p ∈ dest ∧ p ∉ src := by
  simp [findExtraFiles, List.mem_filter]

/-- C10.  `GetSyncMode` only ever returns the backup or restore mode, the
"unknown sync mode" branch of `StartSync` is unreachable, and any mode
string other than "backup" runs the restore direction. -/
theorem c10_unknown_mode_unreachable (mode : String) :
    (GetSyncMode mode = BackupMode ∨ GetSyncMode mode = RestoreMode) ∧
    (∀ m : String, StartSync mode ≠ StartSyncResult.unknownModeError m) ∧
    (mode ≠ BackupMode → GetSyncMode mode = RestoreMode ∧
      StartSync mode = StartSyncResult.restoreRun) := by
  by_cases hb : mode = BackupMode
  · subst hb
    refine ⟨Or.inl rfl, ?_, fun hne => absurd rfl hne⟩
    intro m
    simp [StartSync, GetSyncMode]
  · have hget : GetSyncMode mode = RestoreMode := by
      simp [GetSyncMode, hb]
    have hstart : StartSync mode = StartSyncResult.restoreRun := by
      rw [StartSync, hget]
      simp [BackupMode, RestoreMode]
    exact ⟨Or.inr hget, fun m => by rw [hstart]; simp, fun _ => ⟨hget, hstart⟩⟩

/-- C10, witness: an invalid configured mode resolves to the restore
direction rather than the unknown-mode error. -/
theorem c10_witness :
    GetSyncMode "mirror" = RestoreMode ∧ StartSync "mirror" = StartSyncResult.restoreRun :=
  (c10_unknown_mode_unreachable "mirror").2.2 (by decide)

/-- C2, counterexample.  The claim says both trees are enumerated before the
main pass and neither is re-enumerated afterwards.  In a restore run with
mirror deletion on and an error-free pass, the trace shows the destination
(local) enumeration event after the pass event: the deletion set is built
from a post-pass enumeration of the destination tree. -/
theorem c2_destination_enumerated_after_pass :
    RestoreFromWebDAV true true ["a"] true [] true ["a", "b"] =
      [SyncEvent.enumRemote, SyncEvent.runPass, SyncEvent.enumLocal,
        SyncEvent.deletePath "b"] ∧
    BackupToWebDAV true true ["a"] true [] true ["a", "b"] =
      [SyncEvent.enumLocal, SyncEvent.runPass, SyncEvent.enumRemote,
        SyncEvent.deletePath "b"] := by
  constructor <;> decide

/-- C2, amended.  Only the source tree's enumeration is captured before the
main pass; the destination tree is enumerated after the pass completes, and
the deletion candidates are that post-pass destination enumeration minus
the pre-pass source enumeration, sorted by path length descending. -/
theorem c2_snapshot_order (remoteList localList : List String) (taskErrors : List Bool)
    (h : taskErrors.any (fun e => e) = false) :
    RestoreFromWebDAV true true remoteList true taskErrors true localList =
      [SyncEvent.enumRemote, SyncEvent.runPass, SyncEvent.enumLocal] ++
        (sortByLenDesc (findExtraFiles localList remoteList)).map SyncEvent.deletePath ∧
    BackupToWebDAV true true localList true taskErrors true remoteList =
      [SyncEvent.enumLocal, SyncEvent.runPass, SyncEvent.enumRemote] ++
        (sortByLenDesc (findExtraFiles remoteList localList)).map SyncEvent.deletePath := by
  constructor <;> simp [RestoreFromWebDAV, BackupToWebDAV, passReturnsNil, h]

/-- C2, witness for the amended ordering at a concrete run. -/
theorem c2_snapshot_order_witness :
    RestoreFromWebDAV true true ["x"] true [false] true ["x", "y"] =
      [SyncEvent.enumRemote, SyncEvent.runPass, SyncEvent.enumLocal,
        SyncEvent.deletePath "y"] ∧
    BackupToWebDAV true true ["x", "y"] true [false] true ["x"] =
      [SyncEvent.enumLocal, SyncEvent.runPass, SyncEvent.enumRemote] := by
  have h := c2_snapshot_order ["x"] ["x", "y"] [false] (by decide)
  constructor
  · rw [h.1]
    decide
  · rw [h.2]
    decide

/-- C3, counterexample.  The claim says deletion reconciliation runs
whenever the root enumeration succeeded, even if per-file transfer tasks
failed.  With the root listing successful but a single failed per-file task
(`taskErrors = [true]`), the run performs no destination enumeration and no
deletions: the pass's aggregated error also suppresses reconciliation. -/
theorem c3_per_file_error_aborts_deletion :
    RestoreFromWebDAV true true ["a"] true [true] true ["a", "b"] =
      [SyncEvent.enumRemote, SyncEvent.runPass] ∧
    BackupToWebDAV true true ["a"] true [true] true ["a", "b"] =
      [SyncEvent.enumLocal, SyncEvent.runPass] := by
  constructor <;> decide

/-- C3, amended.  Deletion reconciliation runs iff mirror deletion is
configured, the pre-pass source enumeration succeeded, and the pass
returned a nil error — which requires both the root enumeration and every
per-file task to succeed.  Any per-file transfer error therefore also
aborts deletion. -/
theorem c3_deletion_requires_error_free_pass (syncDelete remoteListOk rootListOk localListOk : Bool)
    (remoteList localList : List String) (taskErrors : List Bool) :
    (SyncEvent.enumLocal ∈
        RestoreFromWebDAV syncDelete remoteListOk remoteList rootListOk taskErrors
          localListOk localList ↔
      (syncDelete && remoteListOk && rootListOk && !(taskErrors.any (fun e => e))) = true) ∧
    (SyncEvent.enumRemote ∈
        BackupToWebDAV syncDelete localListOk localList rootListOk taskErrors
          remoteListOk remoteList ↔
      (syncDelete && localListOk && rootListOk && !(taskErrors.any (fun e => e))) = true) := by
  cases syncDelete <;> cases remoteListOk <;> cases rootListOk <;> cases localListOk <;>
    simp [RestoreFromWebDAV, BackupToWebDAV, passReturnsNil]

theorem retryAux_calls_le {ε : Type} (ops : Nat → Option ε) (attempts : Nat) (r : Nat) :
    ∀ (i sleep : Nat), (retryAux ops attempts i sleep r).calls ≤ r := by
  induction r with
  | zero => intro i sleep; simp [retryAux]
  | succ n ih =>
    intro i sleep
    simp only [retryAux]
    cases hop : ops i with
    | none => simp
    | some e =>
      by_cases hn : n = 0
      · simp [hn]
      · simp only [if_neg hn]
        exact Nat.succ_le_succ (ih (i + 1) (2 * sleep))

theorem retryAux_calls_pos {ε : Type} (ops : Nat → Option ε) (attempts : Nat) (r : Nat)
    (hr : 1 ≤ r) : ∀ (i sleep : Nat), 1 ≤ (retryAux ops attempts i sleep r).calls := by
  cases r with
  | zero => omega
  | succ n =>
    intro i sleep
    simp only [retryAux]
    cases hop : ops i with
    | none => simp
    | some e =>
      by_cases hn : n = 0
      · simp [hn]
      · simp only [if_neg hn]
        omega

theorem retryAux_sleeps {ε : Type} (ops : Nat → Option ε) (attempts : Nat) (r : Nat) :
    ∀ (i sleep : Nat),
      (retryAux ops attempts i sleep r).sleeps =
        (List.range ((retryAux ops attempts i sleep r).calls - 1)).map
          (fun j => sleep * 2 ^ j) := by
  induction r with
  | zero => intro i sleep; simp [retryAux]
  | succ n ih =>
    intro i sleep
    simp only [retryAux]
    cases hop : ops i with
    | none => simp
    | some e =>
      by_cases hn : n = 0
      · simp [hn]
      · simp only [if_neg hn]
        have hpos : 1 ≤ (retryAux ops attempts (i + 1) (2 * sleep) n).calls :=
          retryAux_calls_pos ops attempts n (by omega) (i + 1) (2 * sleep)
        rw [ih (i + 1) (2 * sleep)]
        obtain ⟨m, hm⟩ : ∃ m, (retryAux ops attempts (i + 1) (2 * sleep) n).calls = m + 1 :=
          ⟨(retryAux ops attempts (i + 1) (2 * sleep) n).calls - 1, by omega⟩
        rw [hm]
        simp only [Nat.add_sub_cancel]
        rw [List.range_succ_eq_map]
        simp only [List.map_cons, List.map_map, pow_zero, mul_one]
        congr 1
        apply List.map_congr_left
        intro j _
        simp only [Function.comp_apply, pow_succ]
        ring

theorem retryAux_first_success {ε : Type} (ops : Nat → Option ε) (attempts : Nat) (r : Nat) :
    ∀ (i sleep k : Nat), k < r → (∀ j, j < k → ops (i + j) ≠ none) → ops (i + k) = none →
      (retryAux ops attempts i sleep r).outcome = RetryOutcome.ok ∧
      (retryAux ops attempts i sleep r).calls = k + 1 := by
  induction r with
  | zero => intro i sleep k hk; omega
  | succ n ih =>
    intro i sleep k hk hbefore hk0
    cases k with
    | zero =>
      simp only [Nat.add_zero] at hk0
      simp [retryAux, hk0]
    | succ m =>
      have h0 : ops i ≠ none := by
        have := hbefore 0 (by omega)
        simpa using this
      cases hop : ops i with
      | none => exact absurd hop h0
      | some e =>
        have hn : n ≠ 0 := by omega
        simp only [retryAux, hop, if_neg hn]
        have hrec := ih (i + 1) (2 * sleep) m (by omega)
          (fun j hj => by
            have := hbefore (j + 1) (by omega)
            simpa [Nat.add_assoc, Nat.add_comm 1 j] using this)
          (by
            have : i + 1 + m = i + (m + 1) := by omega
            rw [this]
            exact hk0)
        exact ⟨hrec.1, by simp [hrec.2]⟩

theorem retryAux_all_fail {ε : Type} (ops : Nat → Option ε) (attempts : Nat) (r : Nat) :
    ∀ (i sleep : Nat), 1 ≤ r → (∀ j, j < r → ops (i + j) ≠ none) →
      (retryAux ops attempts i sleep r).outcome =
        RetryOutcome.exhausted attempts (ops (i + r - 1)) ∧
      (retryAux ops attempts i sleep r).calls = r := by
  induction r with
  | zero => intro i sleep h; omega
  | succ n ih =>
    intro i sleep _ hall
    have h0 : ops i ≠ none := by
      have := hall 0 (by omega)
      simpa using this
    cases hop : ops i with
    | none => exact absurd hop h0
    | some e =>
      by_cases hn : n = 0
      · subst hn
        simp [retryAux, hop]
      · simp only [retryAux, hop, if_neg hn]
        have hrec := ih (i + 1) (2 * sleep) (by omega)
          (fun j hj => by
            have := hall (j + 1) (by omega)
            simpa [Nat.add_assoc, Nat.add_comm 1 j] using this)
        refine ⟨?_, by simp [hrec.2]⟩
        have harg : i + 1 + n - 1 = i + (n + 1) - 1 := by omega
        rw [hrec.1, harg]

/-- C5.  For `maxAttempts ≥ 1`, `Retry` invokes the operation at most
`maxAttempts` times; the sleeps happen only between consecutive attempts
(`calls - 1` of them) and form the doubling sequence `d, 2d, 4d, ...`; if
attempt `k` (zero-based) is the first success the outcome is nil after
exactly `k + 1` invocations; if every attempt fails, the outcome is the
exhaustion error recording the attempt count and the last underlying
error, after exactly `maxAttempts` invocations. -/
theorem c5_retry_semantics {ε : Type} (attempts d : Nat) (ops : Nat → Option ε)
    (h : 1 ≤ attempts) :
    (Retry attempts d ops).calls ≤ attempts ∧
    (Retry attempts d ops).sleeps =
      (List.range ((Retry attempts d ops).calls - 1)).map (fun j => d * 2 ^ j) ∧
    (∀ k, k < attempts → (∀ j, j < k → ops j ≠ none) → ops k = none →
      (Retry attempts d ops).outcome = RetryOutcome.ok ∧
      (Retry attempts d ops).calls = k + 1) ∧
    ((∀ k, k < attempts → ops k ≠ none) →
      (Retry attempts d ops).outcome = RetryOutcome.exhausted attempts (ops (attempts - 1)) ∧
      (Retry attempts d ops).calls = attempts) := by
  refine ⟨retryAux_calls_le ops attempts attempts 0 d,
    retryAux_sleeps ops attempts attempts 0 d, ?_, ?_⟩
  · intro k hk hbefore hsucc
    exact retryAux_first_success ops attempts attempts 0 d k hk
      (fun j hj => by simpa using hbefore j hj) (by simpa using hsucc)
  · intro hall
    have := retryAux_all_fail ops attempts attempts 0 d h
      (fun j hj => by simpa using hall j hj)
    simpa using this

/-- C5, witness: with three attempts, base delay 2 and an operation failing
twice then succeeding, the retry returns nil after exactly three calls with
sleeps 2 then 4. -/
theorem c5_retry_witness :
    (Retry 3 2 opsFailTwice).outcome = RetryOutcome.ok ∧
    (Retry 3 2 opsFailTwice).calls = 3 ∧
    (Retry 3 2 opsFailTwice).sleeps = [2, 4] := by
  have h := c5_retry_semantics 3 2 opsFailTwice (by decide)
  have hs := h.2.2.1 2 (by decide)
    (fun j hj => by interval_cases j <;> decide) (by decide)
  exact ⟨hs.1, hs.2, by decide⟩

theorem FS.lookup_erase_self (fs : FS) (p : String) :
    FS.lookup (FS.erase fs p) p = none := by
  induction fs with
  | nil => rfl
  | cons e t ih =>
    simp only [FS.erase]
    by_cases he : e.1 = p
    · simpa [he] using ih
    · simpa [FS.lookup, he] using ih

theorem FS.lookup_erase_ne (fs : FS) (p q : String) (h : ¬ q = p) :
    FS.lookup (FS.erase fs p) q = FS.lookup fs q := by
  induction fs with
  | nil => rfl
  | cons e t ih =>
    simp only [FS.erase]
    have hp : ¬ p = q := fun x => h x.symm
    by_cases he : e.1 = p
    · have heq : ¬ e.1 = q := fun hq => h (he ▸ hq ▸ rfl)
      simp [FS.lookup, he, heq, hp, ih]
    · by_cases heq : e.1 = q
      · simp [FS.lookup, he, heq, h]
      · simp [FS.lookup, he, heq, hp, ih]

theorem FS.lookup_set_self (fs : FS) (p : String) (d : FileData) :
    FS.lookup (FS.set fs p d) p = some d := by
  simp [FS.set, FS.lookup]

theorem FS.lookup_set_ne (fs : FS) (p q : String) (d : FileData) (h : ¬ q = p) :
    FS.lookup (FS.set fs p d) q = FS.lookup fs q := by
  have hp : ¬ p = q := fun hpq => h hpq.symm
  simp only [FS.set, FS.lookup, hp, if_false]
  · exact FS.lookup_erase_ne fs p q h

theorem FS.rename_eq (fs : FS) (src dst : String) (d : FileData)
    (h : FS.lookup fs src = some d) :
    FS.rename fs src dst = FS.set (FS.erase fs src) dst d := by
  simp [FS.rename, h]

theorem FS.chtimes_eq (fs : FS) (p : String) (d : FileData) (t : Int)
    (h : FS.lookup fs p = some d) :
    FS.chtimes fs p t = FS.set fs p ⟨d.content, t⟩ := by
  simp [FS.chtimes, h]

theorem String.ne_append_download (s : String) : ¬ s = s ++ ".download" := by
  intro h
  have hlen := congrArg String.length h
  rw [String.length_append] at hlen
  have : (".download" : String).length = 9 := by decide
  omega

/-- C4.  If a download's stream errors partway (`io.Copy` returns an
error), the function returns an error, the destination path keeps exactly
its previous state (absent or previous data), and the temporary sibling
file `destPath ++ ".download"` is removed.  The rename happens only after
an error-free stream: when the copy, close and rename all succeed, the
destination holds the streamed content with its modification time set to
the remote one, and the temporary file is gone then too. -/
theorem c4_download_atomicity (fs : FS) (now : Int) (localPath : String)
    (remoteModTime : Int) (d : String) (closeOk renameOk : Bool) :
    (DownloadFile fs now true true true closeOk renameOk (Except.error ())
        localPath remoteModTime).2 = true ∧
    FS.lookup (DownloadFile fs now true true true closeOk renameOk (Except.error ())
        localPath remoteModTime).1 localPath = FS.lookup fs localPath ∧
    FS.lookup (DownloadFile fs now true true true closeOk renameOk (Except.error ())
        localPath remoteModTime).1 (localPath ++ ".download") = none ∧
    FS.lookup (DownloadFile fs now true true true true true (Except.ok d)
        localPath remoteModTime).1 localPath = some ⟨d, remoteModTime⟩ ∧
    FS.lookup (DownloadFile fs now true true true true true (Except.ok d)
        localPath remoteModTime).1 (localPath ++ ".download") = none ∧
    (DownloadFile fs now true true true true true (Except.ok d)
        localPath remoteModTime).2 = false := by
  have hne : ¬ localPath = localPath ++ ".download" := String.ne_append_download localPath
  have hne2 : ¬ (localPath ++ ".download") = localPath := fun h => hne h.symm
  refine ⟨rfl, ?_, ?_, ?_, ?_, rfl⟩
  · show FS.lookup (FS.erase (FS.set fs (localPath ++ ".download") ⟨"", now⟩)
        (localPath ++ ".download")) localPath = FS.lookup fs localPath
    rw [FS.lookup_erase_ne _ _ _ hne, FS.lookup_set_ne _ _ _ _ hne]
  · show FS.lookup (FS.erase (FS.set fs (localPath ++ ".download") ⟨"", now⟩)
        (localPath ++ ".download")) (localPath ++ ".download") = none
    exact FS.lookup_erase_self _ _
  · show FS.lookup (FS.chtimes (FS.rename
        (FS.set (FS.set fs (localPath ++ ".download") ⟨"", now⟩)
          (localPath ++ ".download") ⟨d, now⟩)
        (localPath ++ ".download") localPath) localPath remoteModTime) localPath =
      some ⟨d, remoteModTime⟩
    rw [FS.rename_eq _ _ _ _ (FS.lookup_set_self _ _ _),
      FS.chtimes_eq _ _ _ _ (FS.lookup_set_self _ _ _)]
    exact FS.lookup_set_self _ _ _
  · show FS.lookup (FS.chtimes (FS.rename
        (FS.set (FS.set fs (localPath ++ ".download") ⟨"", now⟩)
          (localPath ++ ".download") ⟨d, now⟩)
        (localPath ++ ".download") localPath) localPath remoteModTime)
        (localPath ++ ".download") = none
    rw [FS.rename_eq _ _ _ _ (FS.lookup_set_self _ _ _),
      FS.chtimes_eq _ _ _ _ (FS.lookup_set_self _ _ _)]
    rw [FS.lookup_set_ne _ _ _ _ hne2, FS.lookup_set_ne _ _ _ _ hne2]
    rw [FS.lookup_erase_self]

/-- C6.  After sorting by path length descending, whenever one entry's path
properly extends another entry's path with a separator (the child of an
ancestor), the child occurs strictly earlier in the deletion order; and on
the claim's example the order is exactly "a/b/c.txt", "a/b", "a". -/
theorem c6_children_deleted_before_parents (l : List String) :
    (∀ (i j : Nat) (hi : i < (sortByLenDesc l).length) (hj : j < (sortByLenDesc l).length)
      (r : String),
        (sortByLenDesc l).get ⟨j, hj⟩ = (sortByLenDesc l).get ⟨i, hi⟩ ++ "/" ++ r → j < i) ∧
    sortByLenDesc ["a", "a/b", "a/b/c.txt"] = ["a/b/c.txt", "a/b", "a"] := by
  constructor
  · intro i j hi hj r hext
    have hsorted := pairwise_sortByLenDesc l
    rw [List.pairwise_iff_get] at hsorted
    have hlen : ((sortByLenDesc l).get ⟨j, hj⟩).length =
        ((sortByLenDesc l).get ⟨i, hi⟩).length + 1 + r.length := by
      rw [hext, String.length_append, String.length_append]
      have : ("/" : String).length = 1 := by decide
      omega
    rcases Nat.lt_trichotomy j i with h | h | h
    · exact h
    · exfalso
      subst h
      omega
    · exfalso
      have := hsorted ⟨i, hi⟩ ⟨j, hj⟩ h
      simp only at this
      omega
  · decide

/-- C6, witness: in the sorted example, the child "a/b" (index 1) extends
its parent "a" (index 2) and is deleted strictly earlier. -/
theorem c6_children_deleted_before_parents_witness :
    (sortByLenDesc ["a", "a/b", "a/b/c.txt"]).get ⟨1, by decide⟩ =
      (sortByLenDesc ["a", "a/b", "a/b/c.txt"]).get ⟨2, by decide⟩ ++ "/" ++ "b" ∧
    (1 : Nat) < 2 :=
  ⟨by decide,
    (c6_children_deleted_before_parents ["a", "a/b", "a/b/c.txt"]).1 2 1
      (by decide) (by decide) "b" (by decide)⟩

/-- C9, counterexample.  The claim says a second push run transfers
nothing.  Pushing a file whose local modification time is 0 to an absent
remote uploads it, but `UploadFile` never sets the remote modification
time; with the server recording 2s, the second push sees a difference
above one second and uploads again. -/
theorem c9_second_push_transfers_again :
    (pushFileRun 0 (pushFileRun 0 none (2 * nsPerSecond)).1 (2 * nsPerSecond)).2 = true := by
  decide

/-- C9, amended.  A pull is idempotent: the download's final `os.Chtimes`
copies the remote modification time, so a second pull never transfers.  A
push is not: the second push transfers exactly when the first push
transferred and the server-assigned remote modification time differs from
the local one by at least one second. -/
theorem c9_idempotence (l r s : Int) (lo ro : Option Int) :
    (pullFileRun (pullFileRun lo r).1 r).2 = false ∧
    ((pushFileRun l (pushFileRun l ro s).1 s).2 = true ↔
      (pushFileRun l ro s).2 = true ∧ nsPerSecond ≤ |l - s|) := by
  have hns : (0 : Int) < nsPerSecond := by norm_num [nsPerSecond]
  have hskip : ∀ x : Int, SyncFile.needsDownload true x x = false := by
    intro x
    have hc : x + nsPerSecond > x ∧ x - nsPerSecond < x := ⟨by omega, by omega⟩
    simp [SyncFile.needsDownload, hc]
  have habs : ∀ x y : Int, (¬ (x + nsPerSecond > y ∧ x - nsPerSecond < y)) ↔
      nsPerSecond ≤ |x - y| := by
    intro x y
    rw [← not_lt, abs_sub_lt_iff]
    constructor
    · intro h hcon
      exact h ⟨by omega, by omega⟩
    · intro h hcon
      exact h ⟨by omega, by omega⟩
  have hpush : ∀ y : Int, pushFileRun l (some y) s =
      if l + nsPerSecond > y ∧ l - nsPerSecond < y then (some y, false) else (some s, true) := by
    intro y
    by_cases hc : l + nsPerSecond > y ∧ l - nsPerSecond < y
    · simp [pushFileRun, syncLocalFileToWebDAV.needsUpload, hc]
    · simp [pushFileRun, syncLocalFileToWebDAV.needsUpload, hc]
  constructor
  · rcases lo with _ | l0
    · simp [pullFileRun, hskip r]
    · by_cases hd : SyncFile.needsDownload true l0 r = true
      · simp [pullFileRun, hd, hskip r]
      · simp [pullFileRun, hd]
  · rcases ro with _ | r0
    · rw [show pushFileRun l none s = (some s, true) from rfl]
      rw [show ((some s, true) : Option Int × Bool).1 = some s from rfl]
      rw [hpush s]
      by_cases hc : l + nsPerSecond > s ∧ l - nsPerSecond < s
      · rw [if_pos hc]
        constructor
        · intro h
          exact absurd h (by simp)
        · intro hand
          exact absurd hc ((habs l s).mpr hand.2)
      · rw [if_neg hc]
        exact ⟨fun _ => ⟨rfl, (habs l s).mp hc⟩, fun _ => rfl⟩
    · rw [hpush r0]
      by_cases hc0 : l + nsPerSecond > r0 ∧ l - nsPerSecond < r0
      · rw [if_pos hc0]
        rw [show ((some r0, false) : Option Int × Bool).1 = some r0 from rfl]
        rw [hpush r0, if_pos hc0]
        simp
      · rw [if_neg hc0]
        rw [show ((some s, true) : Option Int × Bool).1 = some s from rfl]
        rw [hpush s]
        by_cases hc : l + nsPerSecond > s ∧ l - nsPerSecond < s
        · rw [if_pos hc]
          constructor
          · intro h
            exact absurd h (by simp)
          · intro hand
            exact absurd hc ((habs l s).mpr hand.2)
        · rw [if_neg hc]
          exact ⟨fun _ => ⟨rfl, (habs l s).mp hc⟩, fun _ => rfl⟩

/-! ## String and tree lemmas for the enumerators -/

theorem string_length_eq_zero_iff (s : String) : s.length = 0 ↔ s = "" := by
  constructor
  · intro h
    have hd : s.data.length = 0 := h
    rw [List.length_eq_zero] at hd
    exact String.ext hd
  · intro h
    subst h
    rfl

theorem append_ne_empty (b n : String) (hn : ¬ n = "") : ¬ b ++ n = "" := by
  intro h
  have hd := congrArg String.data h
  rw [String.data_append] at hd
  exact hn (String.ext (List.append_eq_nil.mp hd).2)

theorem append_ne_slash (b n : String) (hn : ¬ n = "") (hslash : '/' ∉ n.data) :
    ¬ b ++ n = "/" := by
  intro h
  have hd := congrArg String.data h
  rw [String.data_append] at hd
  cases hb : b.data with
  | nil =>
    rw [hb, List.nil_append] at hd
    exact hslash (by rw [show n.data = ['/'] from hd]; exact List.mem_singleton.mpr rfl)
  | cons c bs =>
    rw [hb, List.cons_append] at hd
    have hinj := List.cons.inj hd
    exact hn (String.ext (List.append_eq_nil.mp hinj.2).2)

theorem validName_spec (n : String) (h : validName n = true) :
    ¬ n = "" ∧ '/' ∉ n.data := by
  simp only [validName, Bool.and_eq_true, decide_eq_true_eq, Bool.not_eq_true'] at h
  refine ⟨h.1, fun hm => ?_⟩
  have h2 := h.2
  simp only [List.contains_eq_any_beq] at h2
  rw [List.any_eq_false] at h2
  exact absurd (by simp : ('/' == '/') = true) (by simpa using h2 '/' hm)

theorem remoteChildPath_ne (base n : String) (h : validName n = true) :
    ¬ remoteChildPath base n = "" ∧ ¬ remoteChildPath base n = "/" := by
  obtain ⟨hn, hs⟩ := validName_spec n h
  exact ⟨append_ne_empty _ _ hn, append_ne_slash _ _ hn hs⟩

theorem nodeListValidB_cons (e : Node) (t : NodeList)
    (h : NodeList.validB (NodeList.cons e t) = true) :
    Node.validB e = true ∧ NodeList.validB t = true ∧ ¬ e.name ∈ NodeList.names t := by
  simp only [NodeList.validB, Bool.and_eq_true, Bool.not_eq_true'] at h
  obtain ⟨⟨h1, h2⟩, h3⟩ := h
  refine ⟨h1, h2, fun hm => ?_⟩
  simp only [List.contains_eq_any_beq] at h3
  rw [List.any_eq_false] at h3
  exact absurd (by simp : (e.name == e.name) = true) (by simpa using h3 e.name hm)

theorem nodeValidB_dir (n : String) (sub : NodeList)
    (h : Node.validB (Node.dir n sub) = true) :
    validName n = true ∧ NodeList.validB sub = true := by
  simpa [Node.validB, Bool.and_eq_true] using h

theorem remoteEntries_valid : ∀ (ns : NodeList) (base : String),
    NodeList.validB ns = true → ∀ p ∈ remoteEntries base ns, ¬ p = "" ∧ ¬ p = "/"
  | NodeList.nil, base, _, p, hp => by simp [remoteEntries] at hp
  | NodeList.cons (Node.file n) t, base, hv, p, hp => by
    obtain ⟨h1, h2, _⟩ := nodeListValidB_cons _ _ hv
    have hn : validName n = true := h1
    simp only [remoteEntries, List.singleton_append, List.mem_cons] at hp
    rcases hp with rfl | hp
    · exact remoteChildPath_ne base n hn
    · exact remoteEntries_valid t base h2 p hp
  | NodeList.cons (Node.dir n sub) t, base, hv, p, hp => by
    obtain ⟨h1, h2, _⟩ := nodeListValidB_cons _ _ hv
    obtain ⟨hn, hsub⟩ := nodeValidB_dir n sub h1
    have hcp := remoteChildPath_ne base n hn
    have he : remoteEntries base (NodeList.cons (Node.dir n sub) t) =
        (remoteChildPath base n :: buildRemoteFileList (remoteChildPath base n) sub) ++
          remoteEntries base t := by simp [remoteEntries]
    rw [he, buildRemoteFileList, if_pos (And.intro hcp.2 hcp.1)] at hp
    simp only [List.mem_append, List.mem_cons] at hp
    rcases hp with (rfl | (rfl | hnil) | hp) | hp
    · exact hcp
    · exact hcp
    · simp at hnil
    · exact remoteEntries_valid sub (normalizeRemote (remoteChildPath base n)) hsub p hp
    · exact remoteEntries_valid t base h2 p hp

theorem buildRemoteFileList_valid (q : String) (sub : NodeList)
    (hv : NodeList.validB sub = true) :
    ∀ p ∈ buildRemoteFileList q sub, ¬ p = "" ∧ ¬ p = "/" := by
  intro p hp
  simp only [buildRemoteFileList, List.mem_append] at hp
  rcases hp with hp | hp
  · split at hp
    · rename_i hg
      simp only [List.mem_singleton] at hp
      subst hp
      exact ⟨hg.2, hg.1⟩
    · simp at hp
  · exact remoteEntries_valid sub (normalizeRemote q) hv p hp

theorem isDirPath_count (base : String) (ns : NodeList) (p : String)
    (hd : IsDirPath base ns p) :
    NodeList.validB ns = true → 2 ≤ (remoteEntries base ns).count p := by
  induction hd with
  | head base n sub t =>
    intro hv
    obtain ⟨h1, _, _⟩ := nodeListValidB_cons _ _ hv
    obtain ⟨hn, hsub⟩ := nodeValidB_dir n sub h1
    have hcp := remoteChildPath_ne base n hn
    have he : remoteEntries base (NodeList.cons (Node.dir n sub) t) =
        (remoteChildPath base n :: buildRemoteFileList (remoteChildPath base n) sub) ++
          remoteEntries base t := by simp [remoteEntries]
    rw [he, buildRemoteFileList, if_pos (And.intro hcp.2 hcp.1)]
    rw [List.count_append, List.count_cons_self, List.singleton_append, List.count_cons_self]
    omega
  | tail base e t p hdt ih =>
    intro hv
    obtain ⟨_, h2, _⟩ := nodeListValidB_cons _ _ hv
    have hcount := ih h2
    have hsubl : (remoteEntries base t).Sublist (remoteEntries base (NodeList.cons e t)) := by
      cases e with
      | file n =>
        have he : remoteEntries base (NodeList.cons (Node.file n) t) =
            [remoteChildPath base n] ++ remoteEntries base t := by simp [remoteEntries]
        rw [he]
        exact List.sublist_append_right _ _
      | dir n sub =>
        have he : remoteEntries base (NodeList.cons (Node.dir n sub) t) =
            (remoteChildPath base n :: buildRemoteFileList (remoteChildPath base n) sub) ++
              remoteEntries base t := by simp [remoteEntries]
        rw [he]
        exact List.sublist_append_right _ _
    exact le_trans hcount (hsubl.count_le p)
  | deeper base n sub t p hdsub ih =>
    intro hv
    obtain ⟨h1, _, _⟩ := nodeListValidB_cons _ _ hv
    obtain ⟨hn, hsub⟩ := nodeValidB_dir n sub h1
    have hcount := ih hsub
    have hcp := remoteChildPath_ne base n hn
    have hsublist : (remoteEntries (normalizeRemote (remoteChildPath base n)) sub).Sublist
        (remoteEntries base (NodeList.cons (Node.dir n sub) t)) := by
      have he : remoteEntries base (NodeList.cons (Node.dir n sub) t) =
          (remoteChildPath base n :: buildRemoteFileList (remoteChildPath base n) sub) ++
            remoteEntries base t := by simp [remoteEntries]
      rw [he, buildRemoteFileList, if_pos (And.intro hcp.2 hcp.1)]
      have s1 : (remoteEntries (normalizeRemote (remoteChildPath base n)) sub).Sublist
          ([remoteChildPath base n] ++
            remoteEntries (normalizeRemote (remoteChildPath base n)) sub) :=
        List.sublist_append_right _ _
      have s2 : ([remoteChildPath base n] ++
          remoteEntries (normalizeRemote (remoteChildPath base n)) sub).Sublist
          (remoteChildPath base n :: ([remoteChildPath base n] ++
            remoteEntries (normalizeRemote (remoteChildPath base n)) sub)) :=
        List.sublist_cons_self _ _
      have s3 : (remoteChildPath base n :: ([remoteChildPath base n] ++
          remoteEntries (normalizeRemote (remoteChildPath base n)) sub)).Sublist
          ((remoteChildPath base n :: ([remoteChildPath base n] ++
            remoteEntries (normalizeRemote (remoteChildPath base n)) sub)) ++
            remoteEntries base t) :=
        List.sublist_append_left _ _
      exact (s1.trans s2).trans s3
    exact le_trans hcount (hsublist.count_le p)

theorem sep_append_inj : ∀ (a b r1 r2 : List Char), '/' ∉ a → '/' ∉ b →
    a ++ '/' :: r1 = b ++ '/' :: r2 → a = b ∧ r1 = r2
  | [], [], r1, r2, _, _, h => by simpa using h
  | [], c :: bs, r1, r2, _, hb, h => by
    simp only [List.nil_append, List.cons_append] at h
    obtain ⟨hc, -⟩ := List.cons.inj h
    exact absurd (by rw [← hc]; exact List.mem_cons_self '/' bs) hb
  | c :: as, [], r1, r2, ha, _, h => by
    simp only [List.nil_append, List.cons_append] at h
    obtain ⟨hc, -⟩ := List.cons.inj h
    exact absurd (by rw [hc]; exact List.mem_cons_self '/' as) ha
  | c :: as, c' :: bs, r1, r2, ha, hb, h => by
    simp only [List.cons_append] at h
    obtain ⟨hc, ht⟩ := List.cons.inj h
    have hrec := sep_append_inj as bs r1 r2
      (fun hm => ha (List.mem_cons_of_mem c hm))
      (fun hm => hb (List.mem_cons_of_mem c' hm)) ht
    exact ⟨by rw [hc, hrec.1], hrec.2⟩

theorem slashJoin_empty_base (n : String) : slashJoin "" n = n := by
  simp [slashJoin]

theorem slashJoin_data (b n : String) (hb : ¬ b = "") :
    (slashJoin b n).data = b.data ++ '/' :: n.data := by
  simp only [slashJoin, if_neg hb]
  rw [String.data_append, String.data_append]
  simp

theorem slashJoin_of_ne (b n : String) (hb : ¬ b = "") : slashJoin b n = b ++ "/" ++ n := by
  simp [slashJoin, if_neg hb]

theorem slashJoin_ne_empty (b n : String) (hn : ¬ n = "") : ¬ slashJoin b n = "" := by
  by_cases hb : b = ""
  · simpa [slashJoin, hb] using hn
  · simp only [slashJoin, if_neg hb]
    exact append_ne_empty _ _ hn

theorem slashJoin_length (b n : String) (hb : ¬ b = "") :
    (slashJoin b n).length = b.length + 1 + n.length := by
  simp only [slashJoin, if_neg hb, String.length_append]
  have : ("/" : String).length = 1 := rfl
  omega

theorem append_ne_empty_left (b n : String) (hb : ¬ b = "") : ¬ b ++ n = "" := by
  intro h
  have hd := congrArg String.data h
  rw [String.data_append] at hd
  exact hb (String.ext (List.append_eq_nil.mp hd).1)

theorem extOf_data (q p : String) (h : extOf q p) :
    ∃ s : List Char, p.data = q.data ++ s ∧ (s = [] ∨ ∃ r : List Char, s = '/' :: r) := by
  rcases h with rfl | ⟨r, rfl⟩
  · exact ⟨[], by simp, Or.inl rfl⟩
  · refine ⟨'/' :: r.data, ?_, Or.inr ⟨r.data, rfl⟩⟩
    rw [String.data_append, String.data_append]
    simp

theorem ext_name_eq (X Y : List Char) (hX : '/' ∉ X) (hY : '/' ∉ Y) :
    ∀ (s1 s2 : List Char), (s1 = [] ∨ ∃ r, s1 = '/' :: r) → (s2 = [] ∨ ∃ r, s2 = '/' :: r) →
    X ++ s1 = Y ++ s2 → X = Y := by
  intro s1 s2 h1 h2 heq
  rcases h1 with rfl | ⟨r1, rfl⟩
  · rcases h2 with rfl | ⟨r2, rfl⟩
    · simpa using heq
    · exfalso
      apply hX
      rw [List.append_nil] at heq
      rw [heq]
      exact List.mem_append_right Y (List.mem_cons_self '/' r2)
  · rcases h2 with rfl | ⟨r2, rfl⟩
    · exfalso
      apply hY
      rw [List.append_nil] at heq
      rw [← heq]
      exact List.mem_append_right X (List.mem_cons_self '/' r1)
    · exact (sep_append_inj X Y r1 r2 hX hY heq).1

theorem belongs_name_inj (b x y p : String) (hx : validName x = true) (hy : validName y = true)
    (hpx : extOf (slashJoin b x) p) (hpy : extOf (slashJoin b y) p) : x = y := by
  obtain ⟨hxne, hxs⟩ := validName_spec x hx
  obtain ⟨hyne, hys⟩ := validName_spec y hy
  obtain ⟨s1, hs1, hc1⟩ := extOf_data _ _ hpx
  obtain ⟨s2, hs2, hc2⟩ := extOf_data _ _ hpy
  by_cases hb : b = ""
  · subst hb
    rw [slashJoin_empty_base] at hs1 hs2
    have heq : x.data ++ s1 = y.data ++ s2 := by rw [← hs1, ← hs2]
    exact String.ext (ext_name_eq x.data y.data hxs hys s1 s2 hc1 hc2 heq)
  · rw [slashJoin_data b x hb] at hs1
    rw [slashJoin_data b y hb] at hs2
    have heq : b.data ++ ('/' :: x.data ++ s1) = b.data ++ ('/' :: y.data ++ s2) := by
      rw [← List.append_assoc, ← List.append_assoc, ← hs1, ← hs2]
    have h2 := List.append_cancel_left heq
    simp only [List.cons_append] at h2
    obtain ⟨-, h3⟩ := List.cons.inj h2
    exact String.ext (ext_name_eq x.data y.data hxs hys s1 s2 hc1 hc2 h3)

theorem node_name_valid (m : Node) (h : Node.validB m = true) : validName m.name = true := by
  cases m with
  | file n => exact h
  | dir n sub => exact (nodeValidB_dir n sub h).1

mutual
theorem mem_nodeLocalPaths_ext : ∀ (b : String) (m : Node) (p : String),
    Node.validB m = true → p ∈ nodeLocalPaths b m → extOf (slashJoin b m.name) p
  | b, Node.file n, p, _, hp => by
    simp only [nodeLocalPaths, List.mem_singleton] at hp
    exact Or.inl hp
  | b, Node.dir n sub, p, hv, hp => by
    obtain ⟨hn, hsub⟩ := nodeValidB_dir n sub hv
    simp only [nodeLocalPaths, List.mem_cons] at hp
    rcases hp with rfl | hp
    · exact Or.inl rfl
    · obtain ⟨x, hxmem, hxv, hext⟩ := mem_listLocalPaths_ext (slashJoin b n) sub p hsub hp
      have hbn : ¬ slashJoin b n = "" := slashJoin_ne_empty b n (validName_spec n hn).1
      right
      rcases hext with rfl | ⟨r, rfl⟩
      · refine ⟨x, ?_⟩
        show slashJoin (slashJoin b n) x = slashJoin b n ++ "/" ++ x
        exact slashJoin_of_ne (slashJoin b n) x hbn
      · refine ⟨x ++ "/" ++ r, ?_⟩
        show slashJoin (slashJoin b n) x ++ "/" ++ r = slashJoin b n ++ "/" ++ (x ++ "/" ++ r)
        rw [slashJoin_of_ne (slashJoin b n) x hbn]
        simp [String.append_assoc]

theorem mem_listLocalPaths_ext : ∀ (b : String) (ns : NodeList) (p : String),
    NodeList.validB ns = true → p ∈ listLocalPaths b ns →
    ∃ x, x ∈ NodeList.names ns ∧ validName x = true ∧ extOf (slashJoin b x) p
  | _, NodeList.nil, p, _, hp => by simp [listLocalPaths] at hp
  | b, NodeList.cons m t, p, hv, hp => by
    obtain ⟨h1, h2, _⟩ := nodeListValidB_cons m t hv
    simp only [listLocalPaths, List.mem_append] at hp
    rcases hp with hp | hp
    · exact ⟨m.name, by simp [NodeList.names], node_name_valid m h1,
        mem_nodeLocalPaths_ext b m p h1 hp⟩
    · obtain ⟨x, hx1, hx2, hx3⟩ := mem_listLocalPaths_ext b t p h2 hp
      exact ⟨x, by simp [NodeList.names, hx1], hx2, hx3⟩
end

theorem listLocalPaths_length_gt (b : String) (ns : NodeList) (p : String) (hb : ¬ b = "")
    (hv : NodeList.validB ns = true) (hp : p ∈ listLocalPaths b ns) : b.length < p.length := by
  obtain ⟨x, -, -, hext⟩ := mem_listLocalPaths_ext b ns p hv hp
  rcases hext with rfl | ⟨r, rfl⟩
  · rw [slashJoin_length b x hb]
    omega
  · rw [String.length_append, String.length_append, slashJoin_length b x hb]
    have : ("/" : String).length = 1 := rfl
    omega

theorem listLocalPaths_ne_empty (b : String) (ns : NodeList) (p : String)
    (hv : NodeList.validB ns = true) (hp : p ∈ listLocalPaths b ns) : ¬ p = "" := by
  obtain ⟨x, -, hx2, hext⟩ := mem_listLocalPaths_ext b ns p hv hp
  obtain ⟨hxne, -⟩ := validName_spec x hx2
  rcases hext with rfl | ⟨r, rfl⟩
  · exact slashJoin_ne_empty b x hxne
  · exact append_ne_empty_left _ _
      (append_ne_empty_left _ _ (slashJoin_ne_empty b x hxne))

mutual
theorem nodup_nodeLocalPaths : ∀ (b : String) (m : Node), Node.validB m = true →
    (nodeLocalPaths b m).Nodup
  | b, Node.file n, _ => by simp [nodeLocalPaths]
  | b, Node.dir n sub, hv => by
    obtain ⟨hn, hsub⟩ := nodeValidB_dir n sub hv
    simp only [nodeLocalPaths, List.nodup_cons]
    refine ⟨?_, nodup_listLocalPaths (slashJoin b n) sub hsub⟩
    intro hmem
    have hbn : ¬ slashJoin b n = "" := slashJoin_ne_empty b n (validName_spec n hn).1
    have := listLocalPaths_length_gt (slashJoin b n) sub (slashJoin b n) hbn hsub hmem
    omega

theorem nodup_listLocalPaths : ∀ (b : String) (ns : NodeList), NodeList.validB ns = true →
    (listLocalPaths b ns).Nodup
  | _, NodeList.nil, _ => by simp [listLocalPaths]
  | b, NodeList.cons m t, hv => by
    obtain ⟨h1, h2, h3⟩ := nodeListValidB_cons m t hv
    simp only [listLocalPaths]
    rw [List.nodup_append]
    refine ⟨nodup_nodeLocalPaths b m h1, nodup_listLocalPaths b t h2, ?_⟩
    intro p hp1 hp2
    have hm : validName m.name = true := node_name_valid m h1
    have hext1 := mem_nodeLocalPaths_ext b m p h1 hp1
    obtain ⟨x, hx1, hx2, hx3⟩ := mem_listLocalPaths_ext b t p h2 hp2
    have heq := belongs_name_inj b m.name x p hm hx2 hext1 hx3
    exact h3 (by rw [heq]; exact hx1)
end

/-- C7, counterexample.  The claim says each relative path appears at most
once per enumeration.  For a remote tree holding a single directory `d`,
`buildRemoteFileList` returns `["d", "d"]`: the directory path is appended
once as a child entry of the root listing and once again by its own
recursive invocation, so it appears twice. -/
theorem c7_remote_directory_listed_twice :
    buildRemoteFileList "/" (NodeList.cons (Node.dir "d" NodeList.nil) NodeList.nil) =
      ["d", "d"] ∧
    (buildRemoteFileList "/"
        (NodeList.cons (Node.dir "d" NodeList.nil) NodeList.nil)).count "d" = 2 := by
  have hnil : ∀ b, remoteEntries b NodeList.nil = [] := fun b => by simp [remoteEntries]
  have hd : remoteChildPath "" "d" = "d" := rfl
  have hbd : buildRemoteFileList "d" NodeList.nil = ["d"] := by
    rw [buildRemoteFileList, hnil, if_pos (by decide : ¬ ("d" : String) = "/" ∧ ¬ ("d" : String) = "")]
    rfl
  have hmain : buildRemoteFileList "/"
      (NodeList.cons (Node.dir "d" NodeList.nil) NodeList.nil) = ["d", "d"] := by
    rw [buildRemoteFileList, if_neg (by decide : ¬ (¬ ("/" : String) = "/" ∧ ¬ ("/" : String) = ""))]
    have he : remoteEntries (normalizeRemote "/")
        (NodeList.cons (Node.dir "d" NodeList.nil) NodeList.nil) =
        (remoteChildPath (normalizeRemote "/") "d" ::
          buildRemoteFileList (remoteChildPath (normalizeRemote "/") "d") NodeList.nil) ++
          remoteEntries (normalizeRemote "/") NodeList.nil := by
      simp [remoteEntries]
    rw [he, hnil]
    rw [show normalizeRemote "/" = "" from rfl, hd, hbd]
    rfl
  exact ⟨hmain, by rw [hmain]; decide⟩

/-- C7, amended.  For every well-formed tree (non-empty slash-free entry
names, unique within each directory): the local enumeration
(`buildLocalFileList`) contains each relative path at most once and never
the root; the remote enumeration (`buildRemoteFileList`) never contains the
root either, but it is not duplicate-free: every directory path it
encounters occurs at least twice, once as its parent's child entry and once
re-added by its own recursive call. -/
theorem c7_enumeration_uniqueness (root : NodeList) (hv : NodeList.validB root = true) :
    (buildLocalFileList root).Nodup ∧
    (∀ p ∈ buildLocalFileList root, ¬ p = "") ∧
    (∀ p ∈ buildRemoteFileList "/" root, ¬ p = "" ∧ ¬ p = "/") ∧
    (∀ p, IsDirPath "" root p → 2 ≤ (buildRemoteFileList "/" root).count p) := by
  refine ⟨nodup_listLocalPaths "" root hv, ?_, buildRemoteFileList_valid "/" root hv, ?_⟩
  · intro p hp
    exact listLocalPaths_ne_empty "" root p hv hp
  · intro p hd
    have hb : buildRemoteFileList "/" root = remoteEntries "" root := by
      rw [buildRemoteFileList,
        if_neg (by decide : ¬ (¬ ("/" : String) = "/" ∧ ¬ ("/" : String) = ""))]
      rw [show normalizeRemote "/" = "" from rfl]
      rfl
    rw [hb]
    exact isDirPath_count "" root p hd hv

/-- C7, witness: a concrete valid tree (a directory `d` holding a file `f`)
whose local enumeration is duplicate-free while the remote enumeration
lists the directory path at least twice. -/
theorem c7_enumeration_uniqueness_witness :
    (buildLocalFileList
      (NodeList.cons (Node.dir "d" (NodeList.cons (Node.file "f") NodeList.nil))
        NodeList.nil)).Nodup ∧
    2 ≤ (buildRemoteFileList "/"
      (NodeList.cons (Node.dir "d" (NodeList.cons (Node.file "f") NodeList.nil))
        NodeList.nil)).count (remoteChildPath "" "d") := by
  have h := c7_enumeration_uniqueness
    (NodeList.cons (Node.dir "d" (NodeList.cons (Node.file "f") NodeList.nil)) NodeList.nil)
    (by decide)
  exact ⟨h.1, h.2.2.2 (remoteChildPath "" "d") (IsDirPath.head "" "d" _ _)⟩
